import Mathlib

/-!
Shallow embedding of the ParamDoWat extraction-and-aggregation engine.

Python strings are modelled as `List Char`; BeautifulSoup element trees as the
mutual inductive `Node`/`NodeList`.  The parser `parse_burp_html`, aggregator
`process_urls` (both the `Full_Files/app.py` variant, namespace `FullApp`, and
the `ParaDoWat.py` variant with `has_empty_values` and the priority sort,
namespace `ParaDoWat`), the tag classifier `get_auto_tags`, and the relationship
engine `get_co_occurrence` are translated from the source files.  Python dicts
are modelled as insertion-ordered association lists, matching the guaranteed
insertion-order iteration of Python 3.7+ dicts.
-/

/-- Python strings, modelled as lists of characters. -/
abbrev Str := List Char

/-- String literal helper: the character list of a Lean string literal. -/
def S (s : String) : Str := s.toList

/-- Python `str.strip()`: remove leading and trailing whitespace. -/
def pstrip (s : Str) : Str :=
  ((s.dropWhile Char.isWhitespace).reverse.dropWhile Char.isWhitespace).reverse

/-- Python `str.lower()` (ASCII-faithful). -/
def lowerStr (s : Str) : Str := s.map Char.toLower

/-- Python substring test `pat in hay`. -/
def inStr (pat hay : Str) : Bool := decide (pat <:+: hay)

/-- Python `text.split('=', 1)` when `'=' in text`: the portion before the
first `=` and the portion after it; `none` when there is no `=`. -/
def splitFirstEq : Str → Option (Str × Str)
  | [] => none
  | c :: rest =>
    if c = '=' then some ([], rest)
    else
      match splitFirstEq rest with
      | none => none
      | some (k, v) => some (c :: k, v)

/-- One parameter of a URL record: `{'key': ..., 'value': ...}`. -/
structure Param where
  key : Str
  value : Str
deriving DecidableEq

/-- One URL record: `{'url': ..., 'parameters': [...]}`. -/
structure URLRec where
  url : Str
  parameters : List Param
deriving DecidableEq

mutual
inductive Node where
  | elem (tag : Str) (children : NodeList)
  | text (s : Str)
inductive NodeList where
  | nil
  | cons (n : Node) (ns : NodeList)
end

def NodeList.toList : NodeList → List Node
  | .nil => []
  | .cons n ns => n :: ns.toList

def NodeList.ofList : List Node → NodeList
  | [] => .nil
  | n :: ns => .cons n (NodeList.ofList ns)

def Node.children : Node → NodeList
  | .elem _ cs => cs
  | .text _ => .nil

mutual
/-- BeautifulSoup `get_text(strip=True)`: concatenation of the stripped text
fragments of the subtree, in document order. -/
def Node.getText : Node → Str
  | .text s => pstrip s
  | .elem _ cs => NodeList.getText cs
def NodeList.getText : NodeList → Str
  | .nil => []
  | .cons n ns => n.getText ++ NodeList.getText ns
end

mutual
/-- BeautifulSoup `.string`: the single text fragment of a chain of
single-child elements, if any. -/
def Node.string : Node → Option Str
  | .text s => some s
  | .elem _ (.cons c .nil) => Node.string c
  | .elem _ .nil => none
  | .elem _ (.cons _ (.cons _ _)) => none
end

mutual
/-- The node itself (when its tag matches) followed by all matching
descendants, in document preorder. -/
def Node.selfAll (tag : Str) : Node → List Node
  | .text _ => []
  | .elem t cs => (if t = tag then [Node.elem t cs] else []) ++ NodeList.findAll tag cs
/-- BeautifulSoup `find_all(tag)` over a forest: all matching elements in
document preorder. -/
def NodeList.findAll (tag : Str) : NodeList → List Node
  | .nil => []
  | .cons n ns => Node.selfAll tag n ++ NodeList.findAll tag ns
end

/-- BeautifulSoup `find_next_sibling(tag)` scan: the first element with the
given tag in a sibling list. -/
def NodeList.firstTag (tag : Str) : NodeList → Option Node
  | .nil => none
  | .cons (.elem t cs) ns => if t = tag then some (.elem t cs) else NodeList.firstTag tag ns
  | .cons (.text _) ns => NodeList.firstTag tag ns

def h2Tag : Str := S "h2"
def ulTag : Str := S "ul"
def liTag : Str := S "li"
def bodyTag : Str := S "body"
def dynPhrase : Str := S "Dynamic URLs"

/-- `soup.find('h2', string='Dynamic URLs')` match condition on one node. -/
def isDynH2 (n : Node) : Bool :=
  match n with
  | .elem t cs => decide (t = h2Tag) && decide (Node.string (.elem t cs) = some dynPhrase)
  | .text _ => false

mutual
/-- Finds the first `h2` with string `Dynamic URLs` in document preorder and
returns `some r` where `r` is that heading's next sibling `ul`
(`find_next_sibling('ul')`), or `none` when there is no such heading. -/
def Node.findDynUl : Node → Option (Option Node)
  | .text _ => none
  | .elem _ cs => NodeList.findDynUl cs
def NodeList.findDynUl : NodeList → Option (Option Node)
  | .nil => none
  | .cons n ns =>
    if isDynH2 n then some (NodeList.firstTag ulTag ns)
    else
      match Node.findDynUl n with
      | some r => some r
      | none => NodeList.findDynUl ns
end

/-- The fallback of `app.py`: `soup.find('body')` then `body.find('ul')`. -/
def bodyUl (doc : NodeList) : Option Node :=
  match (NodeList.findAll bodyTag doc).head? with
  | none => none
  | some b => (NodeList.findAll ulTag b.children).head?

/-- `main_ul` selection of `Full_Files/app.py` `parse_burp_html`: the `ul`
after the `Dynamic URLs` heading, falling back to the first `ul` in `body`. -/
def mainUl (doc : NodeList) : Option Node :=
  match NodeList.findDynUl doc with
  | some r => r
  | none => bodyUl doc

/-- One parameter `li`: split the stripped text on the first `=`
(`key.strip()` / `value.strip()`); a non-empty line with no `=` becomes a key
with an empty value; an empty line is skipped. -/
def parseParamText (t : Str) : Option Param :=
  if t = [] then none
  else
    match splitFirstEq t with
    | some (k, v) => some ⟨pstrip k, pstrip v⟩
    | none => some ⟨pstrip t, []⟩

/-- Parameters contributed by a nested `ul`: `for param_li in child.find_all('li')`. -/
def paramsOfUl (child : Node) : List Param :=
  (NodeList.findAll liTag child.children).filterMap (fun li => parseParamText li.getText)

/-- The sibling-shape parsing loop shared by `ParaDoWat.py`, `Full_Files/app.py`
and `burp-tracker-streamlit.py`: iterate the direct children of the working
list; an `li` whose stripped text starts with `http` opens a new record (the
previous current record is kept as-is); a `ul` appends its parameter lines to
the current record, if one exists. -/
def parseLoop : List Node → List URLRec → Option URLRec → List URLRec
  | [], acc, cur => acc ++ cur.toList
  | (Node.text _) :: ns, acc, cur => parseLoop ns acc cur
  | (Node.elem t cs) :: ns, acc, cur =>
    if t = liTag then
      if (S "http").isPrefixOf (Node.getText (.elem t cs)) then
        parseLoop ns (acc ++ cur.toList) (some ⟨Node.getText (.elem t cs), []⟩)
      else parseLoop ns acc cur
    else if t = ulTag then
      match cur with
      | some c => parseLoop ns acc (some ⟨c.url, c.parameters ++ paramsOfUl (.elem t cs)⟩)
      | none => parseLoop ns acc none
    else parseLoop ns acc cur

/-- Run the loop on a working list and drop records with no parameters
(`[u for u in urls if u['parameters']]`). -/
def parse_from_ul : Option Node → List URLRec
  | none => []
  | some u => (parseLoop u.children.toList [] none).filter (fun r => !r.parameters.isEmpty)

/-- `Full_Files/app.py` `parse_burp_html`, on an already-built element forest. -/
def parse_burp_html (doc : NodeList) : List URLRec :=
  parse_from_ul (mainUl doc)

/-- Whether some heading in the document contains the phrase `Dynamic URLs`
(`'Dynamic URLs' in h2.get_text()`). -/
def hasDynHeading (doc : NodeList) : Bool :=
  (NodeList.findAll h2Tag doc).any (fun n => inStr dynPhrase n.getText)

/-- Whether a child node is an `li` whose stripped text starts with `http`,
i.e. opens a new URL record in the parsing loop. -/
def isHttpLi (n : Node) : Bool :=
  match n with
  | .elem t cs => decide (t = liTag) && (S "http").isPrefixOf (Node.getText (.elem t cs))
  | .text _ => false

/-- Python-dict update step: mutate the value at `k` by `f`, first inserting
the default `d` when `k` is absent (new keys go to the end, matching dict
insertion order). -/
def upsert {β : Type} (k : Str) (d : β) (f : β → β) : List (Str × β) → List (Str × β)
  | [] => [(k, f d)]
  | (k₂, v) :: rest => if k₂ = k then (k₂, f v) :: rest else (k₂, v) :: upsert k d f rest

/-- Python-dict lookup on an insertion-ordered association list. -/
def alLookup {β : Type} (k : Str) : List (Str × β) → Option β
  | [] => none
  | (k₂, v) :: rest => if k₂ = k then some v else alLookup k rest

/-- `AUTO_TAG_PATTERNS`: the fixed tag → lowercase-substring-pattern table,
in source order. -/
def AUTO_TAG_PATTERNS : List (Str × List Str) :=
  [(S "File Upload", [S "file", S "upload", S "document", S "doc", S "attachment",
      S "image", S "photo", S "pdf"]),
   (S "IDOR", [S "id", S "user", S "account", S "profile", S "uid", S "userid",
      S "accountid"]),
   (S "XSS", [S "search", S "query", S "q", S "keyword", S "message", S "comment",
      S "text", S "content"]),
   (S "SQLi", [S "id", S "sort", S "order", S "filter", S "category", S "type"]),
   (S "Auth", [S "token", S "session", S "auth", S "key", S "api", S "secret",
      S "password", S "login"]),
   (S "Redirect", [S "redirect", S "url", S "return", S "next", S "callback",
      S "continue", S "returnurl"]),
   (S "Path Traversal", [S "path", S "dir", S "folder", S "directory", S "file",
      S "filename"]),
   (S "Admin", [S "admin", S "role", S "privilege", S "permission", S "access",
      S "level"]),
   (S "Debug", [S "debug", S "test", S "dev", S "trace", S "verbose", S "log"])]

/-- `get_auto_tags`: every tag one of whose patterns is a substring of the
lower-cased parameter name, in table order. -/
def get_auto_tags (param_name : Str) : List Str :=
  AUTO_TAG_PATTERNS.filterMap (fun tp =>
    if tp.2.any (fun pat => inStr pat (lowerStr param_name)) then some tp.1 else none)

/-- The `(empty)` sentinel used for blank parameter values. -/
def emptySentinel : Str := S "(empty)"

/-- Keys of a record's parameter list, with duplicates, in order
(`[p['key'] for p in url_obj['parameters']]`). -/
def recKeys (u : URLRec) : List Str := u.parameters.map Param.key

/-- Descending comparison on a numeric sort-key component, then the rest of
the key: ascending comparison of Python tuples whose first component is the
negated number. -/
def lexDesc (f : Str → Nat) (r : Str → Str → Prop) (a b : Str) : Prop :=
  f b < f a ∨ (f a = f b ∧ r a b)

/-- Ascending comparison on a numeric sort-key component, then the rest of
the key. -/
def lexAsc (f : Str → Nat) (r : Str → Str → Prop) (a b : Str) : Prop :=
  f a < f b ∨ (f a = f b ∧ r a b)

instance {f : Str → Nat} {r : Str → Str → Prop} [DecidableRel r] :
    DecidableRel (lexDesc f r) :=
  fun a b => inferInstanceAs (Decidable (f b < f a ∨ (f a = f b ∧ r a b)))

instance {f : Str → Nat} {r : Str → Str → Prop} [DecidableRel r] :
    DecidableRel (lexAsc f r) :=
  fun a b => inferInstanceAs (Decidable (f a < f b ∨ (f a = f b ∧ r a b)))

namespace ParaDoWat

/-- Aggregated per-parameter data of `ParaDoWat.py` `process_urls`, with the
`has_empty_values` flag. -/
structure ParamEntry where
  values : List (Str × List Str)
  total_occurrences : Nat
  auto_tags : List Str
  has_empty_values : Bool
deriving DecidableEq

/-- The dict created on first sight of a key. -/
def freshEntry (key : Str) : ParamEntry :=
  ⟨[], 0, get_auto_tags key, false⟩

/-- One parameter instance folded into `param_data`: create the entry if
absent, bucket the value (or the `(empty)` sentinel), flag empty values,
append the source URL and bump the count. -/
def addOccurrence (pd : List (Str × ParamEntry)) (url : Str) (p : Param) :
    List (Str × ParamEntry) :=
  upsert p.key (freshEntry p.key)
    (fun e =>
      { e with
        values := upsert (if p.value = [] then emptySentinel else p.value) []
          (fun us => us ++ [url]) e.values
        has_empty_values := e.has_empty_values || p.value.isEmpty
        total_occurrences := e.total_occurrences + 1 }) pd

/-- The double loop of `process_urls` building `param_data`. -/
def buildParamData (urls : List URLRec) : List (Str × ParamEntry) :=
  urls.foldl (fun pd u => u.parameters.foldl (fun pd p => addOccurrence pd u.url p) pd) []

def occOf (pd : List (Str × ParamEntry)) (name : Str) : Nat :=
  ((alLookup name pd).getD (freshEntry name)).total_occurrences

def tagsOf (pd : List (Str × ParamEntry)) (name : Str) : Nat :=
  ((alLookup name pd).getD (freshEntry name)).auto_tags.length

/-- The `0 if has_values else 1` component of `sort_key`, where
`has_values = not has_empty_values or len(values) > 1`. -/
def hvOf (pd : List (Str × ParamEntry)) (name : Str) : Nat :=
  let e := (alLookup name pd).getD (freshEntry name)
  if e.has_empty_values = false ∨ 1 < e.values.length then 0 else 1

/-- Ascending order on the Python `sort_key` tuple
`(-total_occurrences, -num_tags, 0 if has_values else 1, param_name)`. -/
def sortLE (pd : List (Str × ParamEntry)) : Str → Str → Prop :=
  lexDesc (occOf pd) (lexDesc (tagsOf pd) (lexAsc (hvOf pd) (· ≤ ·)))

instance (pd : List (Str × ParamEntry)) : DecidableRel (sortLE pd) :=
  fun a b =>
    inferInstanceAs
      (Decidable (lexDesc (occOf pd) (lexDesc (tagsOf pd) (lexAsc (hvOf pd) (· ≤ ·))) a b))

structure ParamIndex where
  params : List (Str × ParamEntry)
  all_param_names : List Str
  total_urls : Nat
  total_params : Nat
deriving DecidableEq

/-- `ParaDoWat.py` `process_urls`.  `all_params` is a Python set whose
distinct elements are exactly the keys of `param_data`, so the sort input is
the key list of `param_data` and `total_params` its length. -/
def process_urls (urls : List URLRec) : ParamIndex :=
  let param_data := buildParamData urls
  { params := param_data
    all_param_names := List.insertionSort (sortLE param_data) (param_data.map Prod.fst)
    total_urls := urls.length
    total_params := (param_data.map Prod.fst).length }

/-- Sum of the URL-list lengths across an entry's `values` map
(`sum(len(v) for v in values.values())`). -/
def valsLen (e : ParamEntry) : Nat := (e.values.map (fun kv => kv.2.length)).sum

/-- Sum of `total_occurrences` over all entries of a parameter index. -/
def sumOcc (pd : List (Str × ParamEntry)) : Nat :=
  (pd.map (fun kv => kv.2.total_occurrences)).sum

end ParaDoWat

namespace FullApp

/-- Aggregated per-parameter data of `Full_Files/app.py` `process_urls`
(no `has_empty_values` field). -/
structure ParamEntry where
  values : List (Str × List Str)
  total_occurrences : Nat
  auto_tags : List Str
deriving DecidableEq

def freshEntry (key : Str) : ParamEntry :=
  ⟨[], 0, get_auto_tags key⟩

def addOccurrence (pd : List (Str × ParamEntry)) (url : Str) (p : Param) :
    List (Str × ParamEntry) :=
  upsert p.key (freshEntry p.key)
    (fun e =>
      { e with
        values := upsert (if p.value = [] then emptySentinel else p.value) []
          (fun us => us ++ [url]) e.values
        total_occurrences := e.total_occurrences + 1 }) pd

def buildParamData (urls : List URLRec) : List (Str × ParamEntry) :=
  urls.foldl (fun pd u => u.parameters.foldl (fun pd p => addOccurrence pd u.url p) pd) []

def occOf (pd : List (Str × ParamEntry)) (name : Str) : Nat :=
  ((alLookup name pd).getD (freshEntry name)).total_occurrences

/-- Ascending order on the sort key `(-total_occurrences, param_name)`. -/
def sortLE (pd : List (Str × ParamEntry)) : Str → Str → Prop :=
  lexDesc (occOf pd) (· ≤ ·)

instance (pd : List (Str × ParamEntry)) : DecidableRel (sortLE pd) :=
  fun a b => inferInstanceAs (Decidable (lexDesc (occOf pd) (· ≤ ·) a b))

structure ParamIndex where
  params : List (Str × ParamEntry)
  all_param_names : List Str
  total_urls : Nat
  total_params : Nat
deriving DecidableEq

/-- `Full_Files/app.py` `process_urls`. -/
def process_urls (urls : List URLRec) : ParamIndex :=
  let param_data := buildParamData urls
  { params := param_data
    all_param_names := List.insertionSort (sortLE param_data) (param_data.map Prod.fst)
    total_urls := urls.length
    total_params := (param_data.map Prod.fst).length }

end FullApp

/-- Inner step of the `co_occurrence` loop: bump the counter of one key
instance unless it is the target (`if key != target_param`). -/
def coBump (target_param : Str) (co : List (Str × Nat)) (k : Str) : List (Str × Nat) :=
  if k ≠ target_param then upsert k 0 (· + 1) co else co

/-- Outer step of the `co_occurrence` loop: process one record, counting only
when the record's key list contains the target. -/
def coStep (target_param : Str) (co : List (Str × Nat)) (u : URLRec) : List (Str × Nat) :=
  if target_param ∈ recKeys u then (recKeys u).foldl (coBump target_param) co
  else co

/-- The `co_occurrence` defaultdict of `get_co_occurrence`: for every record
whose key list contains the target, bump a counter for every key instance
other than the target. -/
def co_table (urls : List URLRec) (target_param : Str) : List (Str × Nat) :=
  urls.foldl (coStep target_param) []

/-- Count held for a key (`defaultdict(int)` read). -/
def lookupCount (p : Str) (co : List (Str × Nat)) : Nat := (alLookup p co).getD 0

/-- Non-increasing count, the `sorted(..., key=lambda x: x[1], reverse=True)`
order. -/
def geCount (a b : Str × Nat) : Prop := b.2 ≤ a.2

instance : DecidableRel geCount := fun a b => inferInstanceAs (Decidable (b.2 ≤ a.2))

/-- `get_co_occurrence`: the counts sorted by descending count, truncated to
10, each with the partner's freshly computed auto tags. -/
def get_co_occurrence (urls : List URLRec) (target_param : Str) :
    List (Str × Nat × List Str) :=
  ((List.insertionSort geCount (co_table urls target_param)).take 10).map
    (fun pc => (pc.1, pc.2, get_auto_tags pc.1))

/-- Number of occurrences of a key in a key list. -/
def countKey (p : Str) (ks : List Str) : Nat :=
  (ks.filter (fun k => decide (k = p))).length

/-- The count `get_co_occurrence` actually accrues for a partner `p`: one per
parameter instance with key `p`, over the records whose key list contains the
target. -/
def coInstanceCount (urls : List URLRec) (target p : Str) : Nat :=
  (urls.map (fun u => if target ∈ recKeys u then countKey p (recKeys u) else 0)).sum

/-- Modelled from the spec wording for the co-occurrence count: the number of
URL records whose deduplicated parameter key set contains both the target and
the partner. -/
def specRecordCoCount (urls : List URLRec) (target p : Str) : Nat :=
  (urls.filter (fun u => decide (target ∈ recKeys u) && decide (p ∈ recKeys u))).length

/-- A small concrete document: a `body` holding one working list with one
URL item followed by its sibling parameter list. -/
def sampleDoc : NodeList :=
  NodeList.ofList [Node.elem bodyTag (NodeList.ofList
    [Node.elem ulTag (NodeList.ofList
      [Node.elem liTag (NodeList.ofList [Node.text (S "http://x/a")]),
       Node.elem ulTag (NodeList.ofList
         [Node.elem liTag (NodeList.ofList [Node.text (S "id=1")]),
          Node.elem liTag (NodeList.ofList [Node.text (S "debug")])])])])]

/-! ### Association-list lemmas -/

theorem upsert_keys {β : Type} (k : Str) (d : β) (f : β → β) (l : List (Str × β)) :
    (upsert k d f l).map Prod.fst =
      if k ∈ l.map Prod.fst then l.map Prod.fst else l.map Prod.fst ++ [k] := by
  induction l with
  | nil => simp [upsert]
  | cons hd tl ih =>
    obtain ⟨k₂, v⟩ := hd
    by_cases h : k₂ = k
    · subst h
      have h1 : upsert k₂ d f ((k₂, v) :: tl) = (k₂, f v) :: tl := by simp [upsert]
      have h2 : k₂ ∈ List.map Prod.fst ((k₂, v) :: tl) := by
        rw [List.map_cons]
        exact List.mem_cons_self _ _
      rw [h1, if_pos h2]
      simp
    · have hne : ¬ k = k₂ := fun e => h e.symm
      simp only [upsert, if_neg h, List.map_cons, ih, List.mem_cons, hne, false_or]
      by_cases hm : k ∈ tl.map Prod.fst
      · simp [hm]
      · simp [hm]

theorem upsert_keys_nodup {β : Type} (k : Str) (d : β) (f : β → β)
    {l : List (Str × β)} (h : (l.map Prod.fst).Nodup) :
    ((upsert k d f l).map Prod.fst).Nodup := by
  rw [upsert_keys]
  by_cases hm : k ∈ l.map Prod.fst
  · simpa [hm]
  · rw [if_neg hm]
    refine List.Nodup.append h (List.nodup_singleton k) ?_
    intro a ha hb
    rw [List.mem_singleton] at hb
    exact hm (hb ▸ ha)

theorem alLookup_upsert_self {β : Type} (k : Str) (d : β) (f : β → β)
    (l : List (Str × β)) :
    alLookup k (upsert k d f l) = some (f ((alLookup k l).getD d)) := by
  induction l with
  | nil => simp [upsert, alLookup]
  | cons hd tl ih =>
    obtain ⟨k₂, v⟩ := hd
    by_cases h : k₂ = k <;> simp [upsert, alLookup, h, ih]

theorem alLookup_upsert_other {β : Type} {k q : Str} (h : q ≠ k) (d : β) (f : β → β)
    (l : List (Str × β)) :
    alLookup q (upsert k d f l) = alLookup q l := by
  induction l with
  | nil => simp [upsert, alLookup, Ne.symm h]
  | cons hd tl ih =>
    obtain ⟨k₂, v⟩ := hd
    by_cases hk : k₂ = k
    · subst hk
      have hq : ¬ k₂ = q := fun e => h e.symm
      simp [upsert, alLookup, hq]
    · simp [upsert, alLookup, hk, ih]

theorem alLookup_eq_of_mem {β : Type} {l : List (Str × β)} {k : Str} {v : β}
    (hm : (k, v) ∈ l) (hnd : (l.map Prod.fst).Nodup) : alLookup k l = some v := by
  induction l with
  | nil => cases hm
  | cons hd tl ih =>
    obtain ⟨k₂, v₂⟩ := hd
    rcases List.mem_cons.mp hm with heq | htl
    · cases heq
      simp [alLookup]
    · have hk : k₂ ≠ k := by
        intro hkk
        subst hkk
        have : k₂ ∈ tl.map Prod.fst := List.mem_map.mpr ⟨(k₂, v), htl, rfl⟩
        exact (List.nodup_cons.mp hnd).1 this
      simp only [alLookup, if_neg hk]
      exact ih htl (List.nodup_cons.mp hnd).2

theorem upsert_sum {β : Type} (g : β → Nat) (k : Str) (d : β) (f : β → β)
    (hf : ∀ v, g (f v) = g v + 1) (hd : g d = 0) (l : List (Str × β)) :
    ((upsert k d f l).map (fun kv => g kv.2)).sum
      = (l.map (fun kv => g kv.2)).sum + 1 := by
  induction l with
  | nil => simp [upsert, hf, hd]
  | cons hd₂ tl ih =>
    obtain ⟨k₂, v⟩ := hd₂
    by_cases h : k₂ = k
    · subst h
      simp [upsert, hf]
      omega
    · simp [upsert, h, ih]
      omega

theorem upsert_forall {β : Type} {P : Str × β → Prop} {l : List (Str × β)}
    {k : Str} {d : β} {f : β → β}
    (hl : ∀ kv ∈ l, P kv) (hf : ∀ v, P (k, v) → P (k, f v)) (hd : P (k, f d)) :
    ∀ kv ∈ upsert k d f l, P kv := by
  induction l with
  | nil =>
    intro kv hkv
    simp only [upsert, List.mem_singleton] at hkv
    exact hkv ▸ hd
  | cons hd₂ tl ih =>
    obtain ⟨k₂, v⟩ := hd₂
    intro kv hkv
    by_cases h : k₂ = k
    · subst h
      rw [show upsert k₂ d f ((k₂, v) :: tl) = (k₂, f v) :: tl from by simp [upsert]] at hkv
      rcases List.mem_cons.mp hkv with h₂ | htl
      · exact h₂ ▸ hf v (hl (k₂, v) (List.mem_cons_self _ _))
      · exact hl kv (List.mem_cons_of_mem _ htl)
    · rw [show upsert k d f ((k₂, v) :: tl) = (k₂, v) :: upsert k d f tl from by
          simp [upsert, h]] at hkv
      rcases List.mem_cons.mp hkv with h₂ | htl
      · exact h₂ ▸ hl (k₂, v) (List.mem_cons_self _ _)
      · exact ih (fun kv2 h₃ => hl kv2 (List.mem_cons_of_mem _ h₃)) kv htl

/-! ### Lexicographic sort-key lemmas -/

theorem lexDesc_total {f : Str → Nat} {r : Str → Str → Prop}
    (h : ∀ a b, r a b ∨ r b a) (a b : Str) : lexDesc f r a b ∨ lexDesc f r b a := by
  unfold lexDesc
  rcases Nat.lt_trichotomy (f a) (f b) with h1 | h1 | h1
  · right
    left
    exact h1
  · rcases h a b with hr | hr
    · exact Or.inl (Or.inr ⟨h1, hr⟩)
    · exact Or.inr (Or.inr ⟨h1.symm, hr⟩)
  · left
    left
    exact h1

theorem lexDesc_trans {f : Str → Nat} {r : Str → Str → Prop}
    (h : ∀ a b c, r a b → r b c → r a c) (a b c : Str)
    (hab : lexDesc f r a b) (hbc : lexDesc f r b c) : lexDesc f r a c := by
  unfold lexDesc at *
  rcases hab with h1 | ⟨h1, h1r⟩ <;> rcases hbc with h2 | ⟨h2, h2r⟩
  · left
    omega
  · left
    omega
  · left
    omega
  · exact Or.inr ⟨h1.trans h2, h a b c h1r h2r⟩

theorem lexDesc_antisymm {f : Str → Nat} {r : Str → Str → Prop}
    (h : ∀ a b, r a b → r b a → a = b) (a b : Str)
    (hab : lexDesc f r a b) (hba : lexDesc f r b a) : a = b := by
  unfold lexDesc at *
  rcases hab with h1 | ⟨h1, h1r⟩ <;> rcases hba with h2 | ⟨h2, h2r⟩
  · omega
  · omega
  · omega
  · exact h a b h1r h2r

theorem lexAsc_total {f : Str → Nat} {r : Str → Str → Prop}
    (h : ∀ a b, r a b ∨ r b a) (a b : Str) : lexAsc f r a b ∨ lexAsc f r b a := by
  unfold lexAsc
  rcases Nat.lt_trichotomy (f a) (f b) with h1 | h1 | h1
  · left
    left
    exact h1
  · rcases h a b with hr | hr
    · exact Or.inl (Or.inr ⟨h1, hr⟩)
    · exact Or.inr (Or.inr ⟨h1.symm, hr⟩)
  · right
    left
    exact h1

theorem lexAsc_trans {f : Str → Nat} {r : Str → Str → Prop}
    (h : ∀ a b c, r a b → r b c → r a c) (a b c : Str)
    (hab : lexAsc f r a b) (hbc : lexAsc f r b c) : lexAsc f r a c := by
  unfold lexAsc at *
  rcases hab with h1 | ⟨h1, h1r⟩ <;> rcases hbc with h2 | ⟨h2, h2r⟩
  · left
    omega
  · left
    omega
  · left
    omega
  · exact Or.inr ⟨h1.trans h2, h a b c h1r h2r⟩

theorem lexAsc_antisymm {f : Str → Nat} {r : Str → Str → Prop}
    (h : ∀ a b, r a b → r b a → a = b) (a b : Str)
    (hab : lexAsc f r a b) (hba : lexAsc f r b a) : a = b := by
  unfold lexAsc at *
  rcases hab with h1 | ⟨h1, h1r⟩ <;> rcases hba with h2 | ⟨h2, h2r⟩
  · omega
  · omega
  · omega
  · exact h a b h1r h2r

/-! ### Split-on-first-equals lemmas -/

theorem splitFirstEq_of_not_mem {t : Str} (h : '=' ∉ t) : splitFirstEq t = none := by
  induction t with
  | nil => rfl
  | cons c rest ih =>
    have hc : ¬ c = '=' := fun hc => h (hc ▸ List.mem_cons_self _ _)
    have hr : '=' ∉ rest := fun hr => h (List.mem_cons_of_mem _ hr)
    simp [splitFirstEq, hc, ih hr]

theorem splitFirstEq_append {k : Str} (v : Str) (h : '=' ∉ k) :
    splitFirstEq (k ++ '=' :: v) = some (k, v) := by
  induction k with
  | nil => simp [splitFirstEq]
  | cons c rest ih =>
    have hc : ¬ c = '=' := fun hc => h (hc ▸ List.mem_cons_self _ _)
    have hr : '=' ∉ rest := fun hr => h (List.mem_cons_of_mem _ hr)
    simp [splitFirstEq, hc, ih hr]

theorem countKey_cons (p k : Str) (ks : List Str) :
    countKey p (k :: ks) = (if k = p then 1 else 0) + countKey p ks := by
  by_cases h : k = p
  · simp [countKey, List.filter, h]
    omega
  · simp [countKey, List.filter, h]

/-! ### Co-occurrence table lemmas -/

theorem lookupCount_coBump (t k p : Str) (co : List (Str × Nat)) :
    lookupCount p (coBump t co k)
      = lookupCount p co + (if p = k ∧ ¬ k = t then 1 else 0) := by
  unfold coBump lookupCount
  by_cases hk : k = t
  · simp [hk]
  · rw [if_pos hk]
    by_cases hp : p = k
    · subst hp
      rw [alLookup_upsert_self]
      simp [hk]
    · rw [alLookup_upsert_other hp]
      simp [hp]

theorem lookupCount_foldBump (t p : Str) (hp : p ≠ t) (ks : List Str)
    (co : List (Str × Nat)) :
    lookupCount p (ks.foldl (coBump t) co) = lookupCount p co + countKey p ks := by
  induction ks generalizing co with
  | nil => simp [countKey]
  | cons k ks ih =>
    rw [List.foldl_cons, ih, lookupCount_coBump, countKey_cons]
    by_cases hpk : p = k
    · rw [if_pos ⟨hpk, hpk ▸ hp⟩, if_pos hpk.symm]
      omega
    · rw [if_neg (fun hc => hpk hc.1), if_neg (fun hc => hpk hc.symm)]
      omega

theorem lookupCount_coStep (t p : Str) (hp : p ≠ t) (u : URLRec)
    (co : List (Str × Nat)) :
    lookupCount p (coStep t co u)
      = lookupCount p co + (if t ∈ recKeys u then countKey p (recKeys u) else 0) := by
  unfold coStep
  by_cases hm : t ∈ recKeys u
  · rw [if_pos hm, if_pos hm, lookupCount_foldBump t p hp]
  · simp [hm]

theorem lookupCount_co_foldl (t p : Str) (hp : p ≠ t) (urls : List URLRec)
    (co : List (Str × Nat)) :
    lookupCount p (urls.foldl (coStep t) co)
      = lookupCount p co + coInstanceCount urls t p := by
  induction urls generalizing co with
  | nil => simp [coInstanceCount]
  | cons u urls ih =>
    rw [List.foldl_cons, ih, lookupCount_coStep t p hp]
    simp only [coInstanceCount, List.map_cons, List.sum_cons]
    omega

theorem co_table_count (urls : List URLRec) (t p : Str) (hp : p ≠ t) :
    lookupCount p (co_table urls t) = coInstanceCount urls t p := by
  unfold co_table
  rw [lookupCount_co_foldl t p hp]
  simp [lookupCount, alLookup]

theorem coBump_keys_ne (t : Str) {co : List (Str × Nat)}
    (h : ∀ kv ∈ co, kv.1 ≠ t) (k : Str) : ∀ kv ∈ coBump t co k, kv.1 ≠ t := by
  unfold coBump
  by_cases hk : k ≠ t
  · rw [if_pos hk]
    exact upsert_forall h (fun v _ => hk) hk
  · rw [if_neg hk]
    exact h

theorem foldBump_keys_ne (t : Str) {co : List (Str × Nat)}
    (h : ∀ kv ∈ co, kv.1 ≠ t) (ks : List Str) :
    ∀ kv ∈ ks.foldl (coBump t) co, kv.1 ≠ t := by
  induction ks generalizing co with
  | nil => exact h
  | cons k ks ih => exact ih (coBump_keys_ne t h k)

theorem coStep_keys_ne (t : Str) {co : List (Str × Nat)}
    (h : ∀ kv ∈ co, kv.1 ≠ t) (u : URLRec) : ∀ kv ∈ coStep t co u, kv.1 ≠ t := by
  unfold coStep
  by_cases hm : t ∈ recKeys u
  · rw [if_pos hm]
    exact foldBump_keys_ne t h _
  · rw [if_neg hm]
    exact h

theorem co_table_keys_ne (urls : List URLRec) (t : Str) :
    ∀ kv ∈ co_table urls t, kv.1 ≠ t := by
  unfold co_table
  suffices h : ∀ co, (∀ kv ∈ co, kv.1 ≠ t) → ∀ kv ∈ urls.foldl (coStep t) co, kv.1 ≠ t by
    exact h [] (by simp)
  induction urls with
  | nil => exact fun co h => h
  | cons u urls ih => exact fun co h => ih _ (coStep_keys_ne t h u)

theorem coBump_keys_nodup (t : Str) {co : List (Str × Nat)}
    (h : (co.map Prod.fst).Nodup) (k : Str) :
    ((coBump t co k).map Prod.fst).Nodup := by
  unfold coBump
  by_cases hk : k ≠ t
  · rw [if_pos hk]
    exact upsert_keys_nodup _ _ _ h
  · rw [if_neg hk]
    exact h

theorem foldBump_keys_nodup (t : Str) {co : List (Str × Nat)}
    (h : (co.map Prod.fst).Nodup) (ks : List Str) :
    (((ks.foldl (coBump t) co)).map Prod.fst).Nodup := by
  induction ks generalizing co with
  | nil => exact h
  | cons k ks ih => exact ih (coBump_keys_nodup t h k)

theorem coStep_keys_nodup (t : Str) {co : List (Str × Nat)}
    (h : (co.map Prod.fst).Nodup) (u : URLRec) :
    ((coStep t co u).map Prod.fst).Nodup := by
  unfold coStep
  by_cases hm : t ∈ recKeys u
  · rw [if_pos hm]
    exact foldBump_keys_nodup t h _
  · rw [if_neg hm]
    exact h

theorem co_table_keys_nodup (urls : List URLRec) (t : Str) :
    ((co_table urls t).map Prod.fst).Nodup := by
  unfold co_table
  suffices h : ∀ co, ((co : List (Str × Nat)).map Prod.fst).Nodup →
      ((urls.foldl (coStep t) co).map Prod.fst).Nodup by
    exact h [] (by simp)
  induction urls with
  | nil => exact fun co h => h
  | cons u urls ih => exact fun co h => ih _ (coStep_keys_nodup t h u)

theorem co_table_mem_count {urls : List URLRec} {t p : Str} {c : Nat}
    (hm : (p, c) ∈ co_table urls t) : p ≠ t ∧ c = coInstanceCount urls t p := by
  have hne : p ≠ t := co_table_keys_ne urls t (p, c) hm
  have hl : alLookup p (co_table urls t) = some c :=
    alLookup_eq_of_mem hm (co_table_keys_nodup urls t)
  have hc := co_table_count urls t p hne
  rw [lookupCount, hl] at hc
  simp only [Option.getD_some] at hc
  exact ⟨hne, hc⟩

theorem mem_get_co_occurrence {urls : List URLRec} {t p : Str} {c : Nat}
    {tags : List Str} (h : (p, c, tags) ∈ get_co_occurrence urls t) :
    (p, c) ∈ co_table urls t ∧ tags = get_auto_tags p := by
  unfold get_co_occurrence at h
  rcases List.mem_map.mp h with ⟨pc, hpc, heq⟩
  obtain ⟨p₂, c₂⟩ := pc
  have h1 : p₂ = p := congrArg Prod.fst heq
  have h2 : c₂ = c := congrArg (fun x => x.2.1) heq
  have h3 : get_auto_tags p₂ = tags := congrArg (fun x => x.2.2) heq
  have hmem : (p₂, c₂) ∈ List.insertionSort geCount (co_table urls t) :=
    (List.take_sublist _ _).subset hpc
  have hmem2 : (p, c) ∈ co_table urls t := by
    rw [← h1, ← h2]
    exact (List.perm_insertionSort geCount (co_table urls t)).mem_iff.mp hmem
  refine ⟨hmem2, ?_⟩
  rw [← h3, h1]

theorem co_table_of_absent {urls : List URLRec} {t : Str}
    (h : ∀ u ∈ urls, t ∉ recKeys u) : co_table urls t = [] := by
  unfold co_table
  induction urls with
  | nil => rfl
  | cons u urls ih =>
    rw [List.foldl_cons]
    have hu : coStep t [] u = [] := by
      unfold coStep
      rw [if_neg (h u (List.mem_cons_self _ _))]
    rw [hu]
    exact ih (fun u₂ hu₂ => h u₂ (List.mem_cons_of_mem _ hu₂))

/-! ### Parser lemmas -/

theorem head?_mem {α : Type} {l : List α} {a : α} (h : l.head? = some a) : a ∈ l := by
  cases l with
  | nil => simp at h
  | cons x xs =>
    simp only [List.head?_cons, Option.some.injEq] at h
    exact h ▸ List.mem_cons_self _ _

theorem getText_of_string : ∀ (n : Node) {s : Str},
    Node.string n = some s → Node.getText n = pstrip s
  | .text s₂, s, h => by
    simp only [Node.string, Option.some.injEq] at h
    simp [Node.getText, h]
  | .elem t (.cons c .nil), s, h => by
    have hc := getText_of_string c (by simpa [Node.string] using h)
    simp [Node.getText, NodeList.getText, hc]
  | .elem t .nil, s, h => by simp [Node.string] at h
  | .elem t (.cons a (.cons b rest)), s, h => by simp [Node.string] at h

theorem isDynH2_spec {n : Node} (h : isDynH2 n = true) :
    n ∈ Node.selfAll h2Tag n ∧ Node.string n = some dynPhrase := by
  cases n with
  | text s => simp [isDynH2] at h
  | elem t cs =>
    simp only [isDynH2, Bool.and_eq_true, decide_eq_true_eq] at h
    obtain ⟨ht, hs⟩ := h
    refine ⟨?_, hs⟩
    simp only [Node.selfAll, if_pos ht]
    exact List.mem_append.mpr (Or.inl (List.mem_singleton.mpr rfl))

mutual
theorem Node.dynUl_none : ∀ (n : Node),
    (∀ m ∈ Node.selfAll h2Tag n, inStr dynPhrase m.getText = false) →
    Node.findDynUl n = none
  | .text _, _ => rfl
  | .elem t cs, h =>
    NodeList.dynUlList_none cs (fun m hm => h m (by
      simp only [Node.selfAll]
      exact List.mem_append.mpr (Or.inr hm)))
theorem NodeList.dynUlList_none : ∀ (ns : NodeList),
    (∀ m ∈ NodeList.findAll h2Tag ns, inStr dynPhrase m.getText = false) →
    NodeList.findDynUl ns = none
  | .nil, _ => rfl
  | .cons n ns, h => by
    have hd : ¬ isDynH2 n = true := by
      intro hc
      obtain ⟨hmem, hs⟩ := isDynH2_spec hc
      have hget : Node.getText n = pstrip dynPhrase := getText_of_string n hs
      have hmem2 : n ∈ NodeList.findAll h2Tag (.cons n ns) := by
        simp only [NodeList.findAll]
        exact List.mem_append.mpr (Or.inl hmem)
      have hfalse := h n hmem2
      rw [hget, show pstrip dynPhrase = dynPhrase from by decide] at hfalse
      exact absurd hfalse (by decide)
    have hn : Node.findDynUl n = none :=
      Node.dynUl_none n (fun m hm => h m (by
        simp only [NodeList.findAll]
        exact List.mem_append.mpr (Or.inl hm)))
    have hns : NodeList.findDynUl ns = none :=
      NodeList.dynUlList_none ns (fun m hm => h m (by
        simp only [NodeList.findAll]
        exact List.mem_append.mpr (Or.inr hm)))
    simp only [NodeList.findDynUl, if_neg hd, hn, hns]
end

theorem firstTag_mem : ∀ (tag : Str) (ns : NodeList) {u : Node},
    NodeList.firstTag tag ns = some u → u ∈ NodeList.findAll tag ns
  | tag, .nil, u, h => by simp [NodeList.firstTag] at h
  | tag, .cons (.elem t cs) ns, u, h => by
    by_cases ht : t = tag
    · simp only [NodeList.firstTag, if_pos ht, Option.some.injEq] at h
      simp only [NodeList.findAll, Node.selfAll, if_pos ht]
      exact List.mem_append.mpr (Or.inl (List.mem_append.mpr (Or.inl
        (List.mem_singleton.mpr h.symm))))
    · simp only [NodeList.firstTag, if_neg ht] at h
      simp only [NodeList.findAll]
      exact List.mem_append.mpr (Or.inr (firstTag_mem tag ns h))
  | tag, .cons (.text s) ns, u, h => by
    simp only [NodeList.firstTag] at h
    simp only [NodeList.findAll, Node.selfAll]
    exact List.mem_append.mpr (Or.inr (firstTag_mem tag ns h))

mutual
theorem Node.dynUl_mem : ∀ (n : Node) {u : Node},
    Node.findDynUl n = some (some u) → u ∈ Node.selfAll ulTag n
  | .text _, u, h => by simp [Node.findDynUl] at h
  | .elem t cs, u, h => by
    have hm := NodeList.dynUlList_mem cs (by simpa [Node.findDynUl] using h)
    simp only [Node.selfAll]
    exact List.mem_append.mpr (Or.inr hm)
theorem NodeList.dynUlList_mem : ∀ (ns : NodeList) {u : Node},
    NodeList.findDynUl ns = some (some u) → u ∈ NodeList.findAll ulTag ns
  | .nil, u, h => by simp [NodeList.findDynUl] at h
  | .cons n ns, u, h => by
    by_cases hd : isDynH2 n = true
    · simp only [NodeList.findDynUl, if_pos hd, Option.some.injEq] at h
      simp only [NodeList.findAll]
      exact List.mem_append.mpr (Or.inr (firstTag_mem ulTag ns h))
    · simp only [NodeList.findDynUl, if_neg hd] at h
      cases hn : Node.findDynUl n with
      | some r =>
        rw [hn] at h
        simp only [Option.some.injEq] at h
        simp only [NodeList.findAll]
        exact List.mem_append.mpr (Or.inl (Node.dynUl_mem n (by rw [hn, h])))
      | none =>
        rw [hn] at h
        simp only [NodeList.findAll]
        exact List.mem_append.mpr (Or.inr (NodeList.dynUlList_mem ns h))
end

mutual
theorem Node.findAll_trans : ∀ (n : Node) {tq tg : Str} {b u : Node},
    b ∈ Node.selfAll tq n → u ∈ NodeList.findAll tg b.children →
    u ∈ Node.selfAll tg n
  | .text _, tq, tg, b, u, hb, hu => by simp [Node.selfAll] at hb
  | .elem t cs, tq, tg, b, u, hb, hu => by
    simp only [Node.selfAll] at hb ⊢
    rcases List.mem_append.mp hb with hb1 | hb2
    · have hbe : b = Node.elem t cs := by
        by_cases h : t = tq
        · rw [if_pos h] at hb1
          exact List.mem_singleton.mp hb1
        · rw [if_neg h] at hb1
          cases hb1
      rw [hbe] at hu
      exact List.mem_append.mpr (Or.inr hu)
    · exact List.mem_append.mpr (Or.inr (NodeList.findAllList_trans cs hb2 hu))
theorem NodeList.findAllList_trans : ∀ (ns : NodeList) {tq tg : Str} {b u : Node},
    b ∈ NodeList.findAll tq ns → u ∈ NodeList.findAll tg b.children →
    u ∈ NodeList.findAll tg ns
  | .nil, tq, tg, b, u, hb, hu => by simp [NodeList.findAll] at hb
  | .cons n ns, tq, tg, b, u, hb, hu => by
    simp only [NodeList.findAll] at hb ⊢
    rcases List.mem_append.mp hb with hb1 | hb2
    · exact List.mem_append.mpr (Or.inl (Node.findAll_trans n hb1 hu))
    · exact List.mem_append.mpr (Or.inr (NodeList.findAllList_trans ns hb2 hu))
end

theorem bodyUl_of_no_ul {doc : NodeList} (h : NodeList.findAll ulTag doc = []) :
    bodyUl doc = none := by
  unfold bodyUl
  cases hb : (NodeList.findAll bodyTag doc).head? with
  | none => rfl
  | some b =>
    cases hu : (NodeList.findAll ulTag b.children).head? with
    | none => exact hu
    | some u =>
      exfalso
      have hum : u ∈ NodeList.findAll ulTag doc :=
        NodeList.findAllList_trans doc (head?_mem hb) (head?_mem hu)
      rw [h] at hum
      cases hum

theorem parseLoop_step_none {n : Node} (ns : List Node) (acc : List URLRec)
    (h : isHttpLi n = false) :
    parseLoop (n :: ns) acc none = parseLoop ns acc none := by
  cases n with
  | text s => rfl
  | elem t cs =>
    simp only [isHttpLi] at h
    simp only [parseLoop]
    by_cases hli : t = liTag
    · rw [if_pos hli]
      have hd : decide (t = liTag) = true := decide_eq_true hli
      rw [hd, Bool.true_and] at h
      have hp : ¬ List.isPrefixOf (S "http") (Node.getText (Node.elem t cs)) = true := by
        intro hc
        rw [h] at hc
        exact Bool.noConfusion hc
      rw [if_neg hp]
    · rw [if_neg hli]
      by_cases hul : t = ulTag
      · rw [if_pos hul]
      · rw [if_neg hul]

theorem parseLoop_skip_pre {pre : List Node} (rest : List Node) (acc : List URLRec)
    (h : ∀ n ∈ pre, isHttpLi n = false) :
    parseLoop (pre ++ rest) acc none = parseLoop rest acc none := by
  induction pre with
  | nil => rfl
  | cons n pre ih =>
    have hn := h n (List.mem_cons_self _ _)
    have htl : ∀ m ∈ pre, isHttpLi m = false :=
      fun m hm => h m (List.mem_cons_of_mem _ hm)
    rw [List.cons_append, parseLoop_step_none _ _ hn]
    exact ih htl

/-! ### Aggregation lemmas (ParaDoWat variant) -/

theorem ParaDoWat.addOccurrence_inv {pd : List (Str × ParaDoWat.ParamEntry)}
    {url : Str} {p : Param}
    (h : ∀ kv ∈ pd, ParaDoWat.valsLen kv.2 = kv.2.total_occurrences) :
    ∀ kv ∈ ParaDoWat.addOccurrence pd url p,
      ParaDoWat.valsLen kv.2 = kv.2.total_occurrences := by
  unfold ParaDoWat.addOccurrence
  refine upsert_forall h ?_ ?_
  · intro v hv
    have hsum : ParaDoWat.valsLen
        { v with
          values := upsert (if p.value = [] then emptySentinel else p.value) []
            (fun us => us ++ [url]) v.values
          has_empty_values := v.has_empty_values || p.value.isEmpty
          total_occurrences := v.total_occurrences + 1 } = ParaDoWat.valsLen v + 1 := by
      simp only [ParaDoWat.valsLen]
      exact upsert_sum List.length (if p.value = [] then emptySentinel else p.value) []
        (fun us => us ++ [url]) (fun us => by simp) rfl v.values
    rw [hsum, hv]
  · have hsum : ParaDoWat.valsLen
        { ParaDoWat.freshEntry p.key with
          values := upsert (if p.value = [] then emptySentinel else p.value) []
            (fun us => us ++ [url]) (ParaDoWat.freshEntry p.key).values
          has_empty_values := (ParaDoWat.freshEntry p.key).has_empty_values || p.value.isEmpty
          total_occurrences := (ParaDoWat.freshEntry p.key).total_occurrences + 1 }
        = ParaDoWat.valsLen (ParaDoWat.freshEntry p.key) + 1 := by
      simp only [ParaDoWat.valsLen]
      exact upsert_sum List.length (if p.value = [] then emptySentinel else p.value) []
        (fun us => us ++ [url]) (fun us => by simp) rfl _
    rw [hsum]
    rfl

theorem ParaDoWat.foldParams_inv (url : Str) (ps : List Param)
    {pd : List (Str × ParaDoWat.ParamEntry)}
    (h : ∀ kv ∈ pd, ParaDoWat.valsLen kv.2 = kv.2.total_occurrences) :
    ∀ kv ∈ ps.foldl (fun pd p => ParaDoWat.addOccurrence pd url p) pd,
      ParaDoWat.valsLen kv.2 = kv.2.total_occurrences := by
  induction ps generalizing pd with
  | nil => exact h
  | cons p ps ih => exact ih (ParaDoWat.addOccurrence_inv h)

theorem ParaDoWat.build_inv (urls : List URLRec) :
    ∀ kv ∈ ParaDoWat.buildParamData urls,
      ParaDoWat.valsLen kv.2 = kv.2.total_occurrences := by
  unfold ParaDoWat.buildParamData
  suffices h : ∀ pd, (∀ kv ∈ pd, ParaDoWat.valsLen kv.2 = kv.2.total_occurrences) →
      ∀ kv ∈ urls.foldl
        (fun pd u => u.parameters.foldl (fun pd p => ParaDoWat.addOccurrence pd u.url p) pd) pd,
        ParaDoWat.valsLen kv.2 = kv.2.total_occurrences by
    exact h [] (by simp)
  induction urls with
  | nil => exact fun pd h => h
  | cons u urls ih => exact fun pd h => ih _ (ParaDoWat.foldParams_inv u.url u.parameters h)

theorem ParaDoWat.sumOcc_addOccurrence (pd : List (Str × ParaDoWat.ParamEntry))
    (url : Str) (p : Param) :
    ParaDoWat.sumOcc (ParaDoWat.addOccurrence pd url p) = ParaDoWat.sumOcc pd + 1 := by
  unfold ParaDoWat.sumOcc ParaDoWat.addOccurrence
  exact upsert_sum (fun e => e.total_occurrences) p.key (ParaDoWat.freshEntry p.key)
    (fun e =>
      { e with
        values := upsert (if p.value = [] then emptySentinel else p.value) []
          (fun us => us ++ [url]) e.values
        has_empty_values := e.has_empty_values || p.value.isEmpty
        total_occurrences := e.total_occurrences + 1 }) (fun v => rfl) rfl pd

theorem ParaDoWat.sumOcc_foldParams (url : Str) (ps : List Param)
    (pd : List (Str × ParaDoWat.ParamEntry)) :
    ParaDoWat.sumOcc (ps.foldl (fun pd p => ParaDoWat.addOccurrence pd url p) pd)
      = ParaDoWat.sumOcc pd + ps.length := by
  induction ps generalizing pd with
  | nil => rfl
  | cons p ps ih =>
    rw [List.foldl_cons, ih, ParaDoWat.sumOcc_addOccurrence]
    simp only [List.length_cons]
    omega

theorem ParaDoWat.sumOcc_foldUrls (urls : List URLRec)
    (pd : List (Str × ParaDoWat.ParamEntry)) :
    ParaDoWat.sumOcc (urls.foldl
        (fun pd u => u.parameters.foldl (fun pd p => ParaDoWat.addOccurrence pd u.url p) pd) pd)
      = ParaDoWat.sumOcc pd + (urls.map (fun u => u.parameters.length)).sum := by
  induction urls generalizing pd with
  | nil => simp
  | cons u urls ih =>
    rw [List.foldl_cons, ih, ParaDoWat.sumOcc_foldParams]
    simp only [List.map_cons, List.sum_cons]
    omega

theorem ParaDoWat.addOccurrence_empty_establish (pd : List (Str × ParaDoWat.ParamEntry))
    (url k : Str) :
    ∃ e, alLookup k (ParaDoWat.addOccurrence pd url ⟨k, []⟩) = some e ∧
      e.has_empty_values = true ∧
      ∃ ls, alLookup emptySentinel e.values = some ls ∧ url ∈ ls := by
  unfold ParaDoWat.addOccurrence
  refine ⟨_, alLookup_upsert_self k _ _ pd, ?_, ?_⟩
  · simp
  · refine ⟨(alLookup emptySentinel
        ((alLookup k pd).getD (ParaDoWat.freshEntry k)).values).getD [] ++ [url], ?_,
        List.mem_append.mpr (Or.inr (List.mem_singleton.mpr rfl))⟩
    show alLookup emptySentinel (upsert (if ([] : Str) = [] then emptySentinel else []) []
      (fun us => us ++ [url]) ((alLookup k pd).getD (ParaDoWat.freshEntry k)).values) = _
    rw [if_pos rfl]
    exact alLookup_upsert_self emptySentinel _ _ _

theorem ParaDoWat.addOccurrence_empty_preserve {pd : List (Str × ParaDoWat.ParamEntry)}
    {k url : Str}
    (h : ∃ e, alLookup k pd = some e ∧ e.has_empty_values = true ∧
      ∃ ls, alLookup emptySentinel e.values = some ls ∧ url ∈ ls)
    (url₂ : Str) (p : Param) :
    ∃ e, alLookup k (ParaDoWat.addOccurrence pd url₂ p) = some e ∧
      e.has_empty_values = true ∧
      ∃ ls, alLookup emptySentinel e.values = some ls ∧ url ∈ ls := by
  obtain ⟨e, he, hflag, ls, hls, hmem⟩ := h
  unfold ParaDoWat.addOccurrence
  by_cases hk : p.key = k
  · rw [hk, alLookup_upsert_self k _ _ pd, he]
    refine ⟨_, rfl, ?_, ?_⟩
    · simp [hflag]
    · simp only [Option.getD_some]
      by_cases hv : (if p.value = [] then emptySentinel else p.value) = emptySentinel
      · refine ⟨ls ++ [url₂], ?_, List.mem_append.mpr (Or.inl hmem)⟩
        show alLookup emptySentinel
          (upsert (if p.value = [] then emptySentinel else p.value) []
            (fun us => us ++ [url₂]) e.values) = _
        rw [hv, alLookup_upsert_self, hls]
        rfl
      · refine ⟨ls, ?_, hmem⟩
        show alLookup emptySentinel
          (upsert (if p.value = [] then emptySentinel else p.value) []
            (fun us => us ++ [url₂]) e.values) = _
        rw [alLookup_upsert_other (fun hh => hv hh.symm)]
        exact hls
  · rw [alLookup_upsert_other (fun hh => hk hh.symm)]
    exact ⟨e, he, hflag, ls, hls, hmem⟩

theorem ParaDoWat.foldParams_empty_preserve (url₂ : Str) (ps : List Param)
    {pd : List (Str × ParaDoWat.ParamEntry)} {k url : Str}
    (h : ∃ e, alLookup k pd = some e ∧ e.has_empty_values = true ∧
      ∃ ls, alLookup emptySentinel e.values = some ls ∧ url ∈ ls) :
    ∃ e, alLookup k (ps.foldl (fun pd p => ParaDoWat.addOccurrence pd url₂ p) pd) = some e ∧
      e.has_empty_values = true ∧
      ∃ ls, alLookup emptySentinel e.values = some ls ∧ url ∈ ls := by
  induction ps generalizing pd with
  | nil => exact h
  | cons p ps ih => exact ih (ParaDoWat.addOccurrence_empty_preserve h url₂ p)

theorem ParaDoWat.foldUrls_empty_preserve (urls : List URLRec)
    {pd : List (Str × ParaDoWat.ParamEntry)} {k url : Str}
    (h : ∃ e, alLookup k pd = some e ∧ e.has_empty_values = true ∧
      ∃ ls, alLookup emptySentinel e.values = some ls ∧ url ∈ ls) :
    ∃ e, alLookup k (urls.foldl
        (fun pd u => u.parameters.foldl (fun pd p => ParaDoWat.addOccurrence pd u.url p) pd) pd)
      = some e ∧ e.has_empty_values = true ∧
      ∃ ls, alLookup emptySentinel e.values = some ls ∧ url ∈ ls := by
  induction urls generalizing pd with
  | nil => exact h
  | cons u urls ih => exact ih (ParaDoWat.foldParams_empty_preserve u.url u.parameters h)

theorem ParaDoWat.build_empty_flag {urls : List URLRec} {u : URLRec} {p : Param}
    (hu : u ∈ urls) (hp : p ∈ u.parameters) (hv : p.value = []) :
    ∃ e, alLookup p.key (ParaDoWat.buildParamData urls) = some e ∧
      e.has_empty_values = true ∧
      ∃ ls, alLookup emptySentinel e.values = some ls ∧ u.url ∈ ls := by
  obtain ⟨pk, pv⟩ := p
  change pv = [] at hv
  subst hv
  obtain ⟨us₁, us₂, rfl⟩ := List.append_of_mem hu
  obtain ⟨ps₁, ps₂, hps⟩ := List.append_of_mem hp
  unfold ParaDoWat.buildParamData
  rw [List.foldl_append, List.foldl_cons]
  refine ParaDoWat.foldUrls_empty_preserve us₂ ?_
  rw [hps, List.foldl_append, List.foldl_cons]
  refine ParaDoWat.foldParams_empty_preserve u.url ps₂ ?_
  exact ParaDoWat.addOccurrence_empty_establish _ u.url pk

/-! ### Aggregation lemmas (app.py variant) and sort-order properties -/

theorem FullApp.addOccurrence_keys_nodup {pd : List (Str × FullApp.ParamEntry)}
    (h : (pd.map Prod.fst).Nodup) (url : Str) (p : Param) :
    ((FullApp.addOccurrence pd url p).map Prod.fst).Nodup := by
  unfold FullApp.addOccurrence
  exact upsert_keys_nodup _ _ _ h

theorem FullApp.foldParams_keys_nodup (url : Str) (ps : List Param)
    {pd : List (Str × FullApp.ParamEntry)} (h : (pd.map Prod.fst).Nodup) :
    ((ps.foldl (fun pd p => FullApp.addOccurrence pd url p) pd).map Prod.fst).Nodup := by
  induction ps generalizing pd with
  | nil => exact h
  | cons p ps ih => exact ih (FullApp.addOccurrence_keys_nodup h url p)

theorem FullApp.build_keys_nodup (urls : List URLRec) :
    ((FullApp.buildParamData urls).map Prod.fst).Nodup := by
  unfold FullApp.buildParamData
  suffices h : ∀ pd : List (Str × FullApp.ParamEntry), (pd.map Prod.fst).Nodup →
      ((urls.foldl
        (fun pd u => u.parameters.foldl (fun pd p => FullApp.addOccurrence pd u.url p) pd)
        pd).map Prod.fst).Nodup by
    exact h [] (by simp)
  induction urls with
  | nil => exact fun pd h => h
  | cons u urls ih =>
    exact fun pd h => ih _ (FullApp.foldParams_keys_nodup u.url u.parameters h)

theorem FullApp.simpleSortLE_total (pd : List (Str × FullApp.ParamEntry)) (a b : Str) :
    FullApp.sortLE pd a b ∨ FullApp.sortLE pd b a :=
  lexDesc_total (fun x y => le_total x y) a b

theorem FullApp.simpleSortLE_trans (pd : List (Str × FullApp.ParamEntry)) (a b c : Str)
    (hab : FullApp.sortLE pd a b) (hbc : FullApp.sortLE pd b c) : FullApp.sortLE pd a c :=
  lexDesc_trans (f := FullApp.occOf pd) (r := fun a b : Str => a ≤ b)
    (fun _ _ _ hxy hyz => le_trans hxy hyz) a b c hab hbc

theorem FullApp.simpleSortLE_antisymm (pd : List (Str × FullApp.ParamEntry)) (a b : Str)
    (hab : FullApp.sortLE pd a b) (hba : FullApp.sortLE pd b a) : a = b :=
  lexDesc_antisymm (f := FullApp.occOf pd) (r := fun a b : Str => a ≤ b)
    (fun _ _ hxy hyx => le_antisymm hxy hyx) a b hab hba

theorem ParaDoWat.prioSortLE_total (pd : List (Str × ParaDoWat.ParamEntry)) (a b : Str) :
    ParaDoWat.sortLE pd a b ∨ ParaDoWat.sortLE pd b a :=
  lexDesc_total (f := ParaDoWat.occOf pd)
    (r := lexDesc (ParaDoWat.tagsOf pd) (lexAsc (ParaDoWat.hvOf pd) (fun a b : Str => a ≤ b)))
    (fun x y => lexDesc_total (f := ParaDoWat.tagsOf pd)
      (r := lexAsc (ParaDoWat.hvOf pd) (fun a b : Str => a ≤ b))
      (fun x y => lexAsc_total (f := ParaDoWat.hvOf pd) (r := fun a b : Str => a ≤ b)
        (fun x y => le_total x y) x y) x y) a b

theorem ParaDoWat.prioSortLE_trans (pd : List (Str × ParaDoWat.ParamEntry)) (a b c : Str)
    (hab : ParaDoWat.sortLE pd a b) (hbc : ParaDoWat.sortLE pd b c) :
    ParaDoWat.sortLE pd a c :=
  lexDesc_trans (f := ParaDoWat.occOf pd)
    (r := lexDesc (ParaDoWat.tagsOf pd) (lexAsc (ParaDoWat.hvOf pd) (fun a b : Str => a ≤ b)))
    (fun x y z hxy hyz => lexDesc_trans (f := ParaDoWat.tagsOf pd)
      (r := lexAsc (ParaDoWat.hvOf pd) (fun a b : Str => a ≤ b))
      (fun x y z hxy hyz => lexAsc_trans (f := ParaDoWat.hvOf pd)
        (r := fun a b : Str => a ≤ b)
        (fun _ _ _ h1 h2 => le_trans h1 h2) x y z hxy hyz) x y z hxy hyz)
    a b c hab hbc

theorem ParaDoWat.prioSortLE_antisymm (pd : List (Str × ParaDoWat.ParamEntry)) (a b : Str)
    (hab : ParaDoWat.sortLE pd a b) (hba : ParaDoWat.sortLE pd b a) : a = b :=
  lexDesc_antisymm (f := ParaDoWat.occOf pd)
    (r := lexDesc (ParaDoWat.tagsOf pd) (lexAsc (ParaDoWat.hvOf pd) (fun a b : Str => a ≤ b)))
    (fun x y hxy hyx => lexDesc_antisymm (f := ParaDoWat.tagsOf pd)
      (r := lexAsc (ParaDoWat.hvOf pd) (fun a b : Str => a ≤ b))
      (fun x y hxy hyx => lexAsc_antisymm (f := ParaDoWat.hvOf pd)
        (r := fun a b : Str => a ≤ b)
        (fun _ _ h1 h2 => le_antisymm h1 h2) x y hxy hyx) x y hxy hyx)
    a b hab hba

theorem filterMap_if_sublist {α β : Type} (q : α → Bool) (g : α → β) (l : List α) :
    (l.filterMap (fun x => if q x then some (g x) else none)).Sublist (l.map g) := by
  induction l with
  | nil => simp
  | cons x xs ih =>
    by_cases hq : q x = true
    · simpa [List.filterMap_cons, hq] using List.Sublist.cons₂ (g x) ih
    · simpa [List.filterMap_cons, hq] using List.Sublist.cons (g x) ih

/-! ### Claim theorems -/

/-- C1 (counterexample): with a single record whose parameter list holds the
partner key `b` twice, `get_co_occurrence` reports count 2 for `b`, while the
number of records whose deduplicated key set contains both the target `a` and
the partner `b` is 1 — the claimed per-record count is wrong on the code. -/
theorem coOccurrence_duplicate_partner_cex :
    (S "b", 2, get_auto_tags (S "b")) ∈
      get_co_occurrence [⟨S "u1", [⟨S "a", S "1"⟩, ⟨S "b", S "1"⟩, ⟨S "b", S "2"⟩]⟩]
        (S "a") ∧
    specRecordCoCount [⟨S "u1", [⟨S "a", S "1"⟩, ⟨S "b", S "1"⟩, ⟨S "b", S "2"⟩]⟩]
      (S "a") (S "b") = 1 ∧
    (2 : Nat) ≠ 1 :=
  ⟨by decide, by decide, by decide⟩

/-- C1 (amended): every entry `(p, c, tags)` of `get_co_occurrence urls t`
has `p ≠ t`, count `c` equal to the number of parameter *instances* with key
`p` over the records whose key list contains `t` (duplicates inside one
record count once per instance, not once per record), and freshly computed
auto tags. -/
theorem coOccurrence_count_per_instance (urls : List URLRec) (t p : Str) (c : Nat)
    (tags : List Str) (h : (p, c, tags) ∈ get_co_occurrence urls t) :
    p ≠ t ∧ c = coInstanceCount urls t p ∧ tags = get_auto_tags p := by
  obtain ⟨hmem, htags⟩ := mem_get_co_occurrence h
  obtain ⟨hne, hc⟩ := co_table_mem_count hmem
  exact ⟨hne, hc, htags⟩

theorem coOccurrence_count_per_instance_witness :
    S "token" ≠ S "id" ∧
    (2 : Nat) = coInstanceCount
      [⟨S "u1", [⟨S "id", S "1"⟩, ⟨S "token", S "x"⟩]⟩,
       ⟨S "u2", [⟨S "id", S "2"⟩, ⟨S "token", S "y"⟩]⟩] (S "id") (S "token") ∧
    get_auto_tags (S "token") = get_auto_tags (S "token") :=
  coOccurrence_count_per_instance
    [⟨S "u1", [⟨S "id", S "1"⟩, ⟨S "token", S "x"⟩]⟩,
     ⟨S "u2", [⟨S "id", S "2"⟩, ⟨S "token", S "y"⟩]⟩]
    (S "id") (S "token") 2 (get_auto_tags (S "token")) (by decide)

/-- C2: when no heading of the document contains the phrase `Dynamic URLs`,
`parse_burp_html` falls back to the first `ul` found inside `body` as its
working list; and when the document holds no `ul` element at all, it returns
the empty sequence rather than failing. -/
theorem parse_fallback_and_empty (doc : NodeList) :
    (hasDynHeading doc = false →
      mainUl doc = bodyUl doc ∧ parse_burp_html doc = parse_from_ul (bodyUl doc)) ∧
    (NodeList.findAll ulTag doc = [] → parse_burp_html doc = []) := by
  constructor
  · intro h
    have hnone : NodeList.findDynUl doc = none := by
      apply NodeList.dynUlList_none
      intro m hm
      unfold hasDynHeading at h
      cases hb : inStr dynPhrase m.getText with
      | false => rfl
      | true =>
        exfalso
        rw [List.any_eq_false] at h
        exact h m hm hb
    have hmain : mainUl doc = bodyUl doc := by
      unfold mainUl
      rw [hnone]
    refine ⟨hmain, ?_⟩
    unfold parse_burp_html
    rw [hmain]
  · intro h
    have hbody : bodyUl doc = none := bodyUl_of_no_ul h
    unfold parse_burp_html mainUl
    cases hdu : NodeList.findDynUl doc with
    | none =>
      rw [hbody]
      rfl
    | some r =>
      cases r with
      | none => rfl
      | some u =>
        exfalso
        have hu := NodeList.dynUlList_mem doc hdu
        rw [h] at hu
        cases hu

theorem parse_fallback_and_empty_witness :
    (mainUl sampleDoc = bodyUl sampleDoc ∧
      parse_burp_html sampleDoc = parse_from_ul (bodyUl sampleDoc)) ∧
    parse_burp_html NodeList.nil = [] :=
  ⟨(parse_fallback_and_empty sampleDoc).1 (by decide),
   (parse_fallback_and_empty NodeList.nil).2 rfl⟩

/-- C3: `all_param_names` of the app.py aggregator is a permutation of the
keys of the `params` mapping, has no duplicates, and is sorted ascending by
the key `(-total_occurrences, name)`: descending total occurrences with
ascending lexicographic name as the tie-break. -/
theorem aggregate_names_sorted_permutation (urls : List URLRec) :
    ((FullApp.process_urls urls).all_param_names).Perm
      ((FullApp.process_urls urls).params.map Prod.fst) ∧
    ((FullApp.process_urls urls).all_param_names).Nodup ∧
    ((FullApp.process_urls urls).all_param_names).Sorted
      (FullApp.sortLE (FullApp.process_urls urls).params) := by
  have hperm := List.perm_insertionSort (FullApp.sortLE (FullApp.buildParamData urls))
    ((FullApp.buildParamData urls).map Prod.fst)
  have hnd := FullApp.build_keys_nodup urls
  haveI : IsTotal Str (FullApp.sortLE (FullApp.buildParamData urls)) :=
    ⟨FullApp.simpleSortLE_total _⟩
  haveI : IsTrans Str (FullApp.sortLE (FullApp.buildParamData urls)) :=
    ⟨FullApp.simpleSortLE_trans _⟩
  exact ⟨hperm, hperm.nodup_iff.mpr hnd,
    List.sorted_insertionSort (FullApp.sortLE (FullApp.buildParamData urls)) _⟩

theorem aggregate_names_sorted_permutation_witness :
    ((FullApp.process_urls [⟨S "u1", [⟨S "id", S "1"⟩, ⟨S "token", S "x"⟩]⟩]).all_param_names).Perm
      ((FullApp.process_urls [⟨S "u1", [⟨S "id", S "1"⟩, ⟨S "token", S "x"⟩]⟩]).params.map
        Prod.fst) :=
  (aggregate_names_sorted_permutation [⟨S "u1", [⟨S "id", S "1"⟩, ⟨S "token", S "x"⟩]⟩]).1

/-- C4: `get_co_occurrence` never returns the target itself, returns at most
10 entries, sorted by non-increasing count, and returns the empty sequence
when the target occurs in no record's key list. -/
theorem coOccurrence_shape (urls : List URLRec) (t : Str) :
    (∀ e ∈ get_co_occurrence urls t, e.1 ≠ t) ∧
    (get_co_occurrence urls t).length ≤ 10 ∧
    (get_co_occurrence urls t).Pairwise (fun x y => y.2.1 ≤ x.2.1) ∧
    ((∀ u ∈ urls, t ∉ recKeys u) → get_co_occurrence urls t = []) := by
  refine ⟨?_, ?_, ?_, ?_⟩
  · intro e he
    unfold get_co_occurrence at he
    obtain ⟨pc, hpc, heq⟩ := List.mem_map.mp he
    have hmem : pc ∈ co_table urls t :=
      (List.perm_insertionSort geCount _).mem_iff.mp ((List.take_sublist _ _).subset hpc)
    have hne := co_table_keys_ne urls t pc hmem
    rw [← heq]
    exact hne
  · unfold get_co_occurrence
    rw [List.length_map, List.length_take]
    exact min_le_left _ _
  · unfold get_co_occurrence
    rw [List.pairwise_map]
    refine List.Pairwise.sublist (List.take_sublist _ _) ?_
    haveI : IsTotal (Str × Nat) geCount := ⟨fun a b => le_total b.2 a.2⟩
    haveI : IsTrans (Str × Nat) geCount := ⟨fun a b c hab hbc => le_trans hbc hab⟩
    exact List.sorted_insertionSort geCount _
  · intro h
    unfold get_co_occurrence
    rw [co_table_of_absent h]
    rfl

theorem coOccurrence_shape_witness :
    (get_co_occurrence [⟨S "u1", [⟨S "id", S "1"⟩, ⟨S "token", S "x"⟩]⟩] (S "id")).length ≤ 10 ∧
    get_co_occurrence [⟨S "u1", [⟨S "id", S "1"⟩, ⟨S "token", S "x"⟩]⟩] (S "nope") = [] :=
  ⟨(coOccurrence_shape [⟨S "u1", [⟨S "id", S "1"⟩, ⟨S "token", S "x"⟩]⟩] (S "id")).2.1,
   (coOccurrence_shape [⟨S "u1", [⟨S "id", S "1"⟩, ⟨S "token", S "x"⟩]⟩] (S "nope")).2.2.2
     (by decide)⟩

/-- C5: in every entry of the Parameter Index the sum of the URL-list lengths
across the `values` map equals `total_occurrences`, and the sum of
`total_occurrences` over all entries equals the total number of parameter
instances across the input records. -/
theorem aggregate_counting_invariants (urls : List URLRec) :
    (∀ kv ∈ (ParaDoWat.process_urls urls).params,
      ParaDoWat.valsLen kv.2 = kv.2.total_occurrences) ∧
    ParaDoWat.sumOcc (ParaDoWat.process_urls urls).params
      = (urls.map (fun u => u.parameters.length)).sum := by
  constructor
  · intro kv hkv
    exact ParaDoWat.build_inv urls kv hkv
  · show ParaDoWat.sumOcc (ParaDoWat.buildParamData urls) = _
    unfold ParaDoWat.buildParamData
    rw [ParaDoWat.sumOcc_foldUrls urls []]
    simp [ParaDoWat.sumOcc]

theorem aggregate_counting_invariants_witness :
    ParaDoWat.valsLen
        (⟨[(emptySentinel, [S "u"])], 1, get_auto_tags (S "debug"), true⟩ :
          ParaDoWat.ParamEntry)
      = (⟨[(emptySentinel, [S "u"])], 1, get_auto_tags (S "debug"), true⟩ :
          ParaDoWat.ParamEntry).total_occurrences ∧
    ParaDoWat.sumOcc (ParaDoWat.process_urls [⟨S "u", [⟨S "debug", []⟩]⟩]).params
      = ([⟨S "u", [⟨S "debug", []⟩]⟩].map (fun u : URLRec => u.parameters.length)).sum :=
  ⟨(aggregate_counting_invariants [⟨S "u", [⟨S "debug", []⟩]⟩]).1
    (S "debug", ⟨[(emptySentinel, [S "u"])], 1, get_auto_tags (S "debug"), true⟩)
    (by decide),
   (aggregate_counting_invariants [⟨S "u", [⟨S "debug", []⟩]⟩]).2⟩

/-- C6: every URL record returned by `parse_burp_html` has a non-empty
parameter sequence — records with no parameters are discarded by the final
filter. -/
theorem parse_records_nonempty_params (doc : NodeList) (r : URLRec)
    (h : r ∈ parse_burp_html doc) : r.parameters ≠ [] := by
  unfold parse_burp_html parse_from_ul at h
  cases hm : mainUl doc with
  | none =>
    rw [hm] at h
    cases h
  | some u =>
    rw [hm] at h
    have hf := (List.mem_filter.mp h).2
    intro he
    rw [he] at hf
    simp at hf

theorem parse_records_nonempty_params_witness :
    (⟨S "http://x/a", [⟨S "id", S "1"⟩, ⟨S "debug", []⟩]⟩ : URLRec) ∈
        parse_burp_html sampleDoc ∧
    (⟨S "http://x/a", [⟨S "id", S "1"⟩, ⟨S "debug", []⟩]⟩ : URLRec).parameters ≠ [] :=
  ⟨by decide,
   parse_records_nonempty_params sampleDoc
     ⟨S "http://x/a", [⟨S "id", S "1"⟩, ⟨S "debug", []⟩]⟩ (by decide)⟩

/-- C7: a parameter line is split on its first `=` with both sides trimmed; a
non-empty line with no `=` becomes a key with an empty value; and after
aggregation any instance with an empty value is stored under the `(empty)`
sentinel in its entry's `values` map, with `has_empty_values` set. -/
theorem param_split_and_empty_sentinel (k v t : Str) (urls : List URLRec) :
    ('=' ∉ k → parseParamText (k ++ '=' :: v) = some ⟨pstrip k, pstrip v⟩) ∧
    (t ≠ [] → '=' ∉ t → parseParamText t = some ⟨pstrip t, []⟩) ∧
    (∀ u ∈ urls, ∀ p ∈ u.parameters, p.value = [] →
      ∃ e, alLookup p.key (ParaDoWat.process_urls urls).params = some e ∧
        e.has_empty_values = true ∧
        ∃ ls, alLookup emptySentinel e.values = some ls ∧ u.url ∈ ls) := by
  refine ⟨?_, ?_, ?_⟩
  · intro h
    unfold parseParamText
    rw [if_neg (by simp), splitFirstEq_append v h]
  · intro ht h
    unfold parseParamText
    rw [if_neg ht, splitFirstEq_of_not_mem h]
  · intro u hu p hp hv
    exact ParaDoWat.build_empty_flag hu hp hv

theorem param_split_and_empty_sentinel_witness :
    parseParamText (S "a" ++ '=' :: S "b") = some ⟨pstrip (S "a"), pstrip (S "b")⟩ ∧
    parseParamText (S "debug") = some ⟨pstrip (S "debug"), []⟩ ∧
    (∃ e, alLookup (Param.mk (S "debug") []).key
        (ParaDoWat.process_urls [⟨S "u", [⟨S "debug", []⟩]⟩]).params = some e ∧
      e.has_empty_values = true ∧
      ∃ ls, alLookup emptySentinel e.values = some ls ∧
        (⟨S "u", [⟨S "debug", []⟩]⟩ : URLRec).url ∈ ls) :=
  ⟨(param_split_and_empty_sentinel (S "a") (S "b") (S "debug")
      [⟨S "u", [⟨S "debug", []⟩]⟩]).1 (by decide),
   (param_split_and_empty_sentinel (S "a") (S "b") (S "debug")
      [⟨S "u", [⟨S "debug", []⟩]⟩]).2.1 (by decide) (by decide),
   (param_split_and_empty_sentinel (S "a") (S "b") (S "debug")
      [⟨S "u", [⟨S "debug", []⟩]⟩]).2.2
     ⟨S "u", [⟨S "debug", []⟩]⟩ (by decide) ⟨S "debug", []⟩ (by decide) (by decide)⟩

/-- C8: `get_auto_tags` returns exactly the tags one of whose lowercase
patterns is a substring of the lower-cased name, in fixed table order with no
duplicates; `id` receives `IDOR` and `search` receives `XSS`. -/
theorem classify_substring_table (name : Str) :
    (∀ tag, tag ∈ get_auto_tags name ↔
      ∃ pats, (tag, pats) ∈ AUTO_TAG_PATTERNS ∧ ∃ pat ∈ pats, pat <:+: lowerStr name) ∧
    (get_auto_tags name).Sublist (AUTO_TAG_PATTERNS.map Prod.fst) ∧
    (get_auto_tags name).Nodup ∧
    S "IDOR" ∈ get_auto_tags (S "id") ∧ S "XSS" ∈ get_auto_tags (S "search") := by
  refine ⟨?_, ?_, ?_, by decide, by decide⟩
  · intro tag
    unfold get_auto_tags
    rw [List.mem_filterMap]
    constructor
    · rintro ⟨tp, htp, hsome⟩
      by_cases hc : tp.2.any (fun pat => inStr pat (lowerStr name)) = true
      · rw [if_pos hc] at hsome
        obtain ⟨pat, hpat, hin⟩ := List.any_eq_true.mp hc
        have htag : tp.1 = tag := Option.some.inj hsome
        refine ⟨tp.2, ?_, pat, hpat, of_decide_eq_true hin⟩
        rw [← htag]
        exact (Prod.mk.eta (p := tp)) ▸ htp
      · rw [if_neg hc] at hsome
        cases hsome
    · rintro ⟨pats, hmem, pat, hpat, hinf⟩
      refine ⟨(tag, pats), hmem, ?_⟩
      rw [if_pos (List.any_eq_true.mpr ⟨pat, hpat, decide_eq_true hinf⟩)]
  · exact filterMap_if_sublist _ Prod.fst AUTO_TAG_PATTERNS
  · exact List.Nodup.sublist (filterMap_if_sublist _ Prod.fst AUTO_TAG_PATTERNS) (by decide)

theorem classify_substring_table_witness :
    S "IDOR" ∈ get_auto_tags (S "id") ∧ S "XSS" ∈ get_auto_tags (S "search") :=
  ⟨(classify_substring_table (S "id")).2.2.2.1,
   (classify_substring_table (S "search")).2.2.2.2⟩

/-- C9: aggregation is deterministic — the sorted `all_param_names` does not
depend on the iteration order of the `all_params` set: sorting any
permutation of the key list yields exactly `all_param_names`. -/
theorem aggregate_deterministic (urls : List URLRec) (ks : List Str)
    (h : ks.Perm ((ParaDoWat.process_urls urls).params.map Prod.fst)) :
    List.insertionSort (ParaDoWat.sortLE (ParaDoWat.process_urls urls).params) ks
      = (ParaDoWat.process_urls urls).all_param_names := by
  haveI : IsTotal Str (ParaDoWat.sortLE (ParaDoWat.buildParamData urls)) :=
    ⟨ParaDoWat.prioSortLE_total _⟩
  haveI : IsTrans Str (ParaDoWat.sortLE (ParaDoWat.buildParamData urls)) :=
    ⟨ParaDoWat.prioSortLE_trans _⟩
  haveI : IsAntisymm Str (ParaDoWat.sortLE (ParaDoWat.buildParamData urls)) :=
    ⟨ParaDoWat.prioSortLE_antisymm _⟩
  show List.insertionSort (ParaDoWat.sortLE (ParaDoWat.buildParamData urls)) ks
    = List.insertionSort (ParaDoWat.sortLE (ParaDoWat.buildParamData urls))
        ((ParaDoWat.buildParamData urls).map Prod.fst)
  refine List.eq_of_perm_of_sorted
    (r := ParaDoWat.sortLE (ParaDoWat.buildParamData urls)) ?_ ?_ ?_
  · exact ((List.perm_insertionSort _ ks).trans h).trans
      (List.perm_insertionSort _ _).symm
  · exact List.sorted_insertionSort _ _
  · exact List.sorted_insertionSort _ _

theorem aggregate_deterministic_witness :
    List.insertionSort
        (ParaDoWat.sortLE
          (ParaDoWat.process_urls [⟨S "u1", [⟨S "id", S "1"⟩, ⟨S "token", S "x"⟩]⟩]).params)
        [S "token", S "id"]
      = (ParaDoWat.process_urls
          [⟨S "u1", [⟨S "id", S "1"⟩, ⟨S "token", S "x"⟩]⟩]).all_param_names :=
  aggregate_deterministic [⟨S "u1", [⟨S "id", S "1"⟩, ⟨S "token", S "x"⟩]⟩]
    [S "token", S "id"] (by decide)

/-- C10: in the sibling-shape parsing loop, a nested parameter list appearing
before any `http` list item contributes nothing — removing it leaves the
output unchanged, so its lines create no record and attach to none. -/
theorem orphan_param_list_ignored (pre post : List Node) (cs : NodeList)
    (acc : List URLRec) (h : ∀ n ∈ pre, isHttpLi n = false) :
    parseLoop (pre ++ Node.elem ulTag cs :: post) acc none
      = parseLoop (pre ++ post) acc none := by
  rw [parseLoop_skip_pre _ acc h, parseLoop_skip_pre _ acc h]
  have hskip : isHttpLi (Node.elem ulTag cs) = false := by
    simp [isHttpLi, show ¬ ulTag = liTag from by decide]
  rw [parseLoop_step_none post acc hskip]

theorem orphan_param_list_ignored_witness :
    parseLoop
        ([Node.text (S "x"), Node.elem liTag (NodeList.ofList [Node.text (S "plain")])] ++
          Node.elem ulTag
            (NodeList.ofList [Node.elem liTag (NodeList.ofList [Node.text (S "a=1")])]) ::
          [Node.elem liTag (NodeList.ofList [Node.text (S "http://x")])])
        [] none
      = parseLoop
          ([Node.text (S "x"), Node.elem liTag (NodeList.ofList [Node.text (S "plain")])] ++
            [Node.elem liTag (NodeList.ofList [Node.text (S "http://x")])])
          [] none :=
  orphan_param_list_ignored
    [Node.text (S "x"), Node.elem liTag (NodeList.ofList [Node.text (S "plain")])]
    [Node.elem liTag (NodeList.ofList [Node.text (S "http://x")])]
    (NodeList.ofList [Node.elem liTag (NodeList.ofList [Node.text (S "a=1")])])
    [] (by decide)
